import Mathlib

/-!
Verification of the LRU cache in `cache/lru.go` (repository `muthubro/ready-set-go`).

The cache state (`LRUCache`) bundles a doubly linked list of entries ordered
from most- to least-recently used (modelled as a `List Entry`, head = front),
a map from key to list element (modelled as the `Finset` of present keys:
under the index/list bijection that every reachable state satisfies, the Go
map `table : map[string]*list.Element` maps each present key to the unique
list node holding it, so a lookup through the table is modelled as locating
the first — and only — entry with that key in the list), and the `uint64`
accounting fields `size` and `capacity` (modelled as `Nat` reduced modulo
`2 ^ 64` wherever Go's `uint64` arithmetic wraps).

The wall clock (`time.Now()`) is modelled by passing an abstract tick
(`now : Nat`) to each operation that stamps entries; `time.Time` values are
these ticks, with `0` playing the role of Go's zero `time.Time`.

Go panics (nil dereference in `checkCapacity` when the list is empty while
`size > capacity`) are modelled by `Option`: `none` is an aborted run.
-/

namespace ReadySetGo

/-- Modulus of Go's `uint64` arithmetic, `2 ^ 64`. -/
def U64 : Nat := 18446744073709551616

/-- Go's conversion `uint64(i)` of a signed integer `i`, i.e. reduction
modulo `2 ^ 64` (two's complement reinterpretation). -/
def u64ofInt (i : Int) : Nat := (i % (18446744073709551616 : Int)).toNat

/-- Go's wrapping `uint64` addition `a + b`. -/
def u64add (a b : Nat) : Nat := (a + b) % U64

/-- Go's wrapping `uint64` subtraction `a - b`. -/
def u64sub (a b : Nat) : Nat := (a + U64 - b % U64) % U64

/-- A cache value (Go interface `Value`): an opaque payload (`payload`
distinguishes values) together with the result of its `Size() int` method.
`Size` is a Go `int`, hence an integer that a misbehaving implementation
could even make negative; the documented contract asks for a non-negative
size. -/
structure Value where
  payload : Nat
  sz : Int
deriving DecidableEq

/-- A persistence item (Go struct `Item`): a (key, value) pair. -/
structure Item where
  key : String
  value : Value
deriving DecidableEq

/-- A cache entry (Go struct `entry`): key, value, cached size
(`value.Size()` at insertion/update time) and last-access timestamp. -/
structure Entry where
  key : String
  value : Value
  sz : Int
  timeAccessed : Nat
deriving DecidableEq

/-- The cache state (Go struct `LRUCache`). `list` is the recency list,
front (head) = most recently used; `table` is the key index; `size` and
`capacity` are the `uint64` accounting fields. -/
structure LRUCache where
  list : List Entry
  table : Finset String
  size : Nat
  capacity : Nat
deriving DecidableEq

/-- Go `NewLRUCache(capacity uint64)`: empty list, empty table, size 0.
The argument is a `uint64`, hence reduced modulo `2 ^ 64`. -/
def NewLRUCache (capacity : Nat) : LRUCache :=
  { list := [], table := ∅, size := 0, capacity := capacity % U64 }

/-- One pass of the `checkCapacity` eviction loop
(`for lru.size > lru.capacity { ... }`), with explicit fuel. Each iteration
removes the back (last) element, deletes its key from the table and
subtracts its cached size from `size` in `uint64` arithmetic — exactly the
loop body of the Go source, which has no emptiness test: when the list is
empty while `size > capacity`, `lru.list.Back()` is nil and the Go code
panics, modelled by `none`. Fuel `c.list.length + 1` always suffices (each
iteration shortens the list), so the fuel-exhaustion `none` is dead code. -/
def evict : Nat → LRUCache → Option LRUCache
  | 0, _ => none
  | fuel + 1, c =>
    if c.capacity < c.size then
      match c.list.getLast? with
      | none => none
      | some delValue =>
          evict fuel
            { list := c.list.dropLast
              table := c.table.erase delValue.key
              size := u64sub c.size (u64ofInt delValue.sz)
              capacity := c.capacity }
    else some c

/-- Go `checkCapacity`: run the eviction loop to completion. -/
def checkCapacity (c : LRUCache) : Option LRUCache :=
  evict (c.list.length + 1) c

/-- Go `lru.table[key]`: the list element the index maps `key` to. Under
the index/list bijection holding in every reachable state, this is the
unique entry of the recency list carrying `key` (and `none` when the key
is absent from the table). -/
def tableLookup (c : LRUCache) (key : String) : Option Entry :=
  if key ∈ c.table then c.list.find? (fun e => e.key == key) else none

/-- Go `moveToFront(element)` for the element the table maps `key` to:
move that entry to the front of the list and refresh its timestamp to the
current clock tick. -/
def moveToFrontKey (c : LRUCache) (key : String) (now : Nat) : LRUCache :=
  match c.list.find? (fun e => e.key == key) with
  | none => c
  | some e =>
      { c with
        list := { e with timeAccessed := now } ::
          c.list.eraseP (fun x => x.key == key) }

/-- Go `addNew(key, value)`: push a fresh entry (cached size =
`value.Size()`, timestamp = now) to the front, index it, grow `size` by
`uint64(value.Size())`, then run `checkCapacity`. -/
def addNew (c : LRUCache) (key : String) (value : Value) (now : Nat) :
    Option LRUCache :=
  checkCapacity
    { list := { key := key, value := value, sz := value.sz,
                timeAccessed := now } :: c.list
      table := insert key c.table
      size := u64add c.size (u64ofInt value.sz)
      capacity := c.capacity }

/-- In-place mutation of the list node holding `key` (the node the Go
table points at — the first and, in reachable states, only entry with that
key): replace its value and cached size. -/
def updateEntry : List Entry → String → Value → List Entry
  | [], _, _ => []
  | e :: rest, key, v =>
      if e.key == key then { e with value := v, sz := v.sz } :: rest
      else e :: updateEntry rest key v

/-- Go `updateInplace(element, value)` for the element the table maps
`key` to: overwrite value and cached size, grow `size` by
`uint64(newSize - oldSize)` (the Go `int` difference, then converted to
`uint64`; modulo `2 ^ 64` the intermediate signed wrap is invisible),
promote the entry, then run `checkCapacity`. `none` covers the
(unreachable) case of a table key with no list node. -/
def updateInplace (c : LRUCache) (key : String) (v : Value) (now : Nat) :
    Option LRUCache :=
  match c.list.find? (fun e => e.key == key) with
  | none => none
  | some old =>
      checkCapacity
        (moveToFrontKey
          { c with
            list := updateEntry c.list key v
            size := u64add c.size (u64ofInt (v.sz - old.sz)) }
          key now)

/-- Go `Get(key)`: a miss returns `(nil, false)` with no side effect; a
hit promotes the entry and returns its value. -/
def get (c : LRUCache) (key : String) (now : Nat) :
    Option Value × LRUCache :=
  match tableLookup c key with
  | none => (none, c)
  | some e => (some e.value, moveToFrontKey c key now)

/-- Go `Set(key, value)`: promote if the key exists (touch-only — the
stored value and size are not replaced), otherwise insert a new entry. -/
def set (c : LRUCache) (key : String) (value : Value) (now : Nat) :
    Option LRUCache :=
  if key ∈ c.table then some (moveToFrontKey c key now)
  else addNew c key value now

/-- Go `SetIfAbsent(key, value)`: insert only when absent; a present key
makes the whole call a no-op. -/
def setIfAbsent (c : LRUCache) (key : String) (value : Value) (now : Nat) :
    Option LRUCache :=
  if key ∈ c.table then some c
  else addNew c key value now

/-- Go `Delete(key)`: remove the entry from list and table and shrink
`size` by its cached size, returning `true`; absent keys give `false` with
no change. -/
def delete (c : LRUCache) (key : String) : Bool × LRUCache :=
  match tableLookup c key with
  | none => (false, c)
  | some e =>
      (true,
        { c with
          list := c.list.eraseP (fun x => x.key == key)
          table := c.table.erase key
          size := u64sub c.size (u64ofInt e.sz) })

/-- Go `Clear()`: empty list and table, reset `size` to 0; `capacity` is
untouched. -/
def clear (c : LRUCache) : LRUCache :=
  { list := [], table := ∅, size := 0, capacity := c.capacity }

/-- Go `SetCapacity(capacity uint64)`: store the new ceiling and
immediately run `checkCapacity`. -/
def setCapacity (c : LRUCache) (capacity : Nat) : Option LRUCache :=
  checkCapacity { c with capacity := capacity % U64 }

/-- Go `Stats()`: `(length, size, capacity, oldest)`, where `oldest` is
the back entry's last-access time, or the zero time (`0`) when the cache
is empty. `uint64(lru.list.Len())` is the length itself: a Go list length
is a non-negative `int`, always below `2 ^ 63`. -/
def stats (c : LRUCache) : Nat × Nat × Nat × Nat :=
  (c.list.length, c.size, c.capacity,
    match c.list.getLast? with
    | none => 0
    | some e => e.timeAccessed)

/-- Go `StatsJSON()`: the literal `"\x7b\x7d"` on a nil receiver
(modelled by `none`), otherwise the four `Stats()` fields formatted as a
JSON object. -/
def statsJSON (lru : Option LRUCache) : String :=
  match lru with
  | none => "\x7b\x7d"
  | some c =>
      let s := stats c
      "\x7b\"Length\": " ++ toString s.1 ++ ", \"Size\": " ++
        toString s.2.1 ++ ", \"Capacity\": " ++ toString s.2.2.1 ++
        ", \"OldestAccess\": \"" ++ toString s.2.2.2 ++ "\"\x7d"

/-- Go `Keys()`: all keys, most- to least-recently used. -/
def keys (c : LRUCache) : List String := c.list.map Entry.key

/-- Go `Items()`: all (key, value) pairs, most- to least-recently used. -/
def items (c : LRUCache) : List Item :=
  c.list.map (fun e => { key := e.key, value := e.value })

/-- A gob-encoded byte stream holding a `[]Item`, as seen by
`SaveItems` / `LoadItems`: either a well-formed encoding of an item list
(gob round-trips the slice) or a malformed/truncated stream on which
`Decode` fails. -/
inductive GobStream where
  | ok (itemList : List Item)
  | bad
deriving DecidableEq

/-- Go `SaveItems(w)`: snapshot `Items()` and gob-encode the slice. -/
def saveItems (c : LRUCache) : GobStream := GobStream.ok (items c)

/-- Result of `LoadItems`: decoding failed (error returned to the caller,
with the resulting cache state), succeeded, or the run aborted in a
panic. -/
inductive LoadResult where
  | panicked
  | decodeError (c : LRUCache)
  | ok (c : LRUCache)
deriving DecidableEq

/-- The application loop of Go `LoadItems`: for each decoded item in
stream order, update in place when the key is present, insert otherwise. -/
def applyItems : LRUCache → List Item → Nat → Option LRUCache
  | c, [], _ => some c
  | c, item :: rest, now =>
      match
        (if item.key ∈ c.table then updateInplace c item.key item.value now
         else addNew c item.key item.value now) with
      | none => none
      | some c' => applyItems c' rest now

/-- Go `LoadItems(r)`: `decoder.Decode(&items)` first — on a malformed
stream the error is returned before the application loop runs, so the
cache is left exactly as it was; on success every decoded item is applied
in stream order. -/
def loadItems (c : LRUCache) (r : GobStream) (now : Nat) : LoadResult :=
  match r with
  | GobStream.bad => LoadResult.decodeError c
  | GobStream.ok itemList =>
      match applyItems c itemList now with
      | none => LoadResult.panicked
      | some c' => LoadResult.ok c'

/-- One public cache operation, for reasoning about operation sequences. -/
inductive Op where
  | get (key : String)
  | set (key : String) (value : Value)
  | setIfAbsent (key : String) (value : Value)
  | delete (key : String)
  | clear
  | setCapacity (capacity : Nat)
  | load (r : GobStream)
deriving DecidableEq

/-- Apply one public operation at clock tick `now`. `none` is a panicking
run (only `checkCapacity` can panic). -/
def applyOp (c : LRUCache) (op : Op) (now : Nat) : Option LRUCache :=
  match op with
  | Op.get key => some (get c key now).2
  | Op.set key v => set c key v now
  | Op.setIfAbsent key v => setIfAbsent c key v now
  | Op.delete key => some (delete c key).2
  | Op.clear => some (clear c)
  | Op.setCapacity cap => setCapacity c cap
  | Op.load r =>
      match loadItems c r now with
      | LoadResult.panicked => none
      | LoadResult.decodeError c' => some c'
      | LoadResult.ok c' => some c'

/-- Run a sequence of public operations, the clock ticking once per
operation. -/
def runOps : List Op → Nat → LRUCache → Option LRUCache
  | [], _, c => some c
  | op :: ops, now, c =>
      match applyOp c op now with
      | none => none
      | some c' => runOps ops (now + 1) c'

/-- The set of keys present in the recency list. -/
def keysOf (l : List Entry) : Finset String := (l.map Entry.key).toFinset

/-- Sum of the entries' cached sizes, as an integer. -/
def sumInt (l : List Entry) : Int := (l.map Entry.sz).sum

/-- Sum of the entries' values' reported sizes, as an integer. -/
def sumVal (l : List Item) : Int := (l.map (fun i => i.value.sz)).sum

/-- Accounting consistency: the stored `uint64` size is the sum of the
cached entry sizes reduced modulo `2 ^ 64`. -/
def SizeOK (c : LRUCache) : Prop := c.size = u64ofInt (sumInt c.list)

/-- Index consistency: the table is exactly the set of listed keys and no
key is listed twice (the index/list bijection). -/
def TableOK (c : LRUCache) : Prop :=
  c.table = keysOf c.list ∧ (c.list.map Entry.key).Nodup

/-- Full consistency invariant of reachable cache states. -/
def Consistent (c : LRUCache) : Prop := SizeOK c ∧ TableOK c

instance (c : LRUCache) : Decidable (SizeOK c) := by
  unfold SizeOK; infer_instance

instance (c : LRUCache) : Decidable (TableOK c) := by
  unfold TableOK; infer_instance

instance (c : LRUCache) : Decidable (Consistent c) := by
  unfold Consistent; infer_instance

def evictDemoEntry : Entry :=
  { key := "x", value := { payload := 0, sz := 5 }, sz := 5, timeAccessed := 0 }

def evictDemoState : LRUCache :=
  { list := [evictDemoEntry], table := {"x"}, size := 5, capacity := 3 }

def oversizedEntry : Entry :=
  { key := "big", value := { payload := 7, sz := 5 }, sz := 5, timeAccessed := 0 }

def oversizedState : LRUCache :=
  { list := [oversizedEntry], table := {"big"}, size := 5, capacity := 3 }

def overflowOps : List Op :=
  [Op.setCapacity 18446744073709551615,
   Op.set "a" { payload := 0, sz := 9223372036854775807 },
   Op.set "b" { payload := 0, sz := 9223372036854775807 },
   Op.set "c" { payload := 0, sz := 2 }]

def overflowFinal : LRUCache :=
  { list :=
      [{ key := "c", value := { payload := 0, sz := 2 }, sz := 2,
         timeAccessed := 3 },
       { key := "b", value := { payload := 0, sz := 9223372036854775807 },
         sz := 9223372036854775807, timeAccessed := 2 },
       { key := "a", value := { payload := 0, sz := 9223372036854775807 },
         sz := 9223372036854775807, timeAccessed := 1 }],
    table := {"c", "b", "a"},
    size := 0,
    capacity := 18446744073709551615 }

def touchEntry : Entry :=
  { key := "a", value := { payload := 7, sz := 2 }, sz := 2, timeAccessed := 0 }

def touchState : LRUCache :=
  { list := [touchEntry], table := {"a"}, size := 2, capacity := 10 }

def rtState : LRUCache :=
  { list := [{ key := "a", value := { payload := 1, sz := 1 }, sz := 1,
               timeAccessed := 0 },
             { key := "b", value := { payload := 2, sz := 2 }, sz := 2,
               timeAccessed := 0 }],
    table := {"a", "b"}, size := 3, capacity := 10 }

def wrapOps : List Op :=
  [Op.setCapacity 18446744073709551615,
   Op.set "a" { payload := 0, sz := 9223372036854775807 },
   Op.set "b" { payload := 0, sz := 9223372036854775807 },
   Op.set "c" { payload := 0, sz := 2 },
   Op.setCapacity 9223372036854775808]

def wrapState : LRUCache :=
  { list :=
      [{ key := "c", value := { payload := 0, sz := 2 }, sz := 2,
         timeAccessed := 3 },
       { key := "b", value := { payload := 0, sz := 9223372036854775807 },
         sz := 9223372036854775807, timeAccessed := 2 },
       { key := "a", value := { payload := 0, sz := 9223372036854775807 },
         sz := 9223372036854775807, timeAccessed := 1 }],
    table := {"c", "b", "a"},
    size := 0,
    capacity := 9223372036854775808 }

def wrapLoaded : LRUCache :=
  { list :=
      [{ key := "a", value := { payload := 0, sz := 9223372036854775807 },
         sz := 9223372036854775807, timeAccessed := 9 }],
    table := {"a"},
    size := 9223372036854775807,
    capacity := 9223372036854775808 }

theorem u64ofInt_lt (i : Int) : u64ofInt i < U64 := by
  unfold u64ofInt U64; omega

theorem u64sub_u64ofInt (a b : Int) :
    u64sub (u64ofInt a) (u64ofInt b) = u64ofInt (a - b) := by
  unfold u64sub u64ofInt U64; omega

theorem sumInt_append (l1 l2 : List Entry) :
    sumInt (l1 ++ l2) = sumInt l1 + sumInt l2 := by
  simp [sumInt]

theorem sumInt_single (e : Entry) : sumInt [e] = e.sz := by
  simp [sumInt]

theorem keysOf_append (l1 l2 : List Entry) :
    keysOf (l1 ++ l2) = keysOf l1 ∪ keysOf l2 := by
  simp [keysOf]

theorem evict_master (fuel : Nat) : ∀ c : LRUCache, c.list.length < fuel → SizeOK c →
    ∃ c', evict fuel c = some c' ∧ SizeOK c' ∧ c'.capacity = c.capacity ∧
      c'.size ≤ c'.capacity ∧ (∃ k, c'.list = c.list.take k) ∧
      (TableOK c → TableOK c') := by
  induction fuel with
  | zero => intro c hfuel _; omega
  | succ fuel ih =>
    intro c hfuel hsz
    by_cases hcap : c.capacity < c.size
    · cases hl : c.list.getLast? with
      | none =>
        exfalso
        have hnil : c.list = [] := List.getLast?_eq_none_iff.mp hl
        have : c.size = 0 := by
          simp only [SizeOK, hnil] at hsz
          simpa [sumInt, u64ofInt] using hsz
        omega
      | some delValue =>
        have hsplit : c.list.dropLast ++ [delValue] = c.list :=
          List.dropLast_append_getLast? delValue (by simp [hl])
        have hne : c.list ≠ [] := by
          intro h; rw [h] at hl; simp at hl
        have hlen : c.list.dropLast.length < fuel := by
          have := List.length_dropLast c.list
          have : c.list.length ≠ 0 := by
            intro h; exact hne (List.length_eq_zero.mp h)
          simp [List.length_dropLast]; omega
        set c1 : LRUCache :=
          { list := c.list.dropLast
            table := c.table.erase delValue.key
            size := u64sub c.size (u64ofInt delValue.sz)
            capacity := c.capacity } with hc1
        have hsum : sumInt c.list = sumInt c.list.dropLast + delValue.sz := by
          conv_lhs => rw [← hsplit]
          rw [sumInt_append, sumInt_single]
        have hsz1 : SizeOK c1 := by
          simp only [SizeOK, hc1]
          rw [hsz, u64sub_u64ofInt, hsum]
          ring_nf
        obtain ⟨c', hev, hsz', hcap', hle', ⟨k, htake⟩, htab⟩ := ih c1 hlen hsz1
        refine ⟨c', ?_, hsz', hcap', hle', ⟨min k (c.list.length - 1), ?_⟩, ?_⟩
        · show evict (fuel + 1) c = some c'
          simp only [evict]
          rw [if_pos hcap, hl]
          exact hev
        · rw [htake]
          show c.list.dropLast.take k = _
          rw [List.dropLast_eq_take, List.take_take]
        · intro ⟨htable, hnodup⟩
          have hkeys : c.list.map Entry.key =
              c.list.dropLast.map Entry.key ++ [delValue.key] := by
            conv_lhs => rw [← hsplit]
            rw [List.map_append]
            rfl
          rw [hkeys] at hnodup
          have hparts := List.nodup_append.mp hnodup
          have hnotmem : delValue.key ∉ c.list.dropLast.map Entry.key :=
            fun hmem => hparts.2.2 hmem (by simp)
          apply htab
          refine ⟨?_, hparts.1⟩
          show c.table.erase delValue.key = keysOf c.list.dropLast
          rw [htable]
          show (c.list.map Entry.key).toFinset.erase delValue.key = _
          rw [hkeys]
          ext a
          simp only [Finset.mem_erase, List.mem_toFinset, List.mem_append,
            List.mem_singleton, keysOf]
          constructor
          · rintro ⟨hne', h | h⟩
            · exact h
            · exact absurd h hne'
          · intro ha
            exact ⟨fun h => hnotmem (h ▸ ha), Or.inl ha⟩
    · refine ⟨c, ?_, hsz, rfl, by omega, ⟨c.list.length, by simp⟩, fun h => h⟩
      simp only [evict]
      rw [if_neg hcap]

theorem checkCapacity_spec (c : LRUCache) (hsz : SizeOK c) :
    ∃ c', checkCapacity c = some c' ∧ SizeOK c' ∧ c'.capacity = c.capacity ∧
      c'.size ≤ c'.capacity ∧ (∃ k, c'.list = c.list.take k) ∧
      (TableOK c → TableOK c') :=
  evict_master (c.list.length + 1) c (by omega) hsz

theorem checkCapacity_noop (c : LRUCache) (h : c.size ≤ c.capacity) :
    checkCapacity c = some c := by
  simp only [checkCapacity, evict]
  rw [if_neg (by omega)]

theorem find_key_split {l : List Entry} {key : String} {e : Entry}
    (h : l.find? (fun x => x.key == key) = some e) :
    ∃ l1 l2, l = l1 ++ e :: l2 ∧ (∀ b ∈ l1, ¬ b.key = key) ∧ e.key = key ∧
      l.eraseP (fun x => x.key == key) = l1 ++ l2 ∧
      ∀ v, updateEntry l key v = l1 ++ { e with value := v, sz := v.sz } :: l2 := by
  induction l with
  | nil => simp at h
  | cons a rest ih =>
    by_cases ha : a.key = key
    · have hpa : (a.key == key) = true := by simp [ha]
      rw [List.find?_cons, hpa] at h
      injection h with h
      subst h
      refine ⟨[], rest, by simp, by simp, ha, ?_, ?_⟩
      · simp [List.eraseP_cons, hpa]
      · intro v
        simp [updateEntry, hpa]
    · have hpa : (a.key == key) = false := by simp [ha]
      rw [List.find?_cons, hpa] at h
      obtain ⟨l1, l2, hsplit, hl1, hek, herase, hupd⟩ := ih h
      refine ⟨a :: l1, l2, by simp [hsplit], ?_, hek, ?_, ?_⟩
      · intro b hb
        rcases List.mem_cons.mp hb with hb | hb
        · subst hb; exact ha
        · exact hl1 b hb
      · rw [List.eraseP_cons, hpa, herase]
        rfl
      · intro v
        simp only [updateEntry, hpa, if_false, hupd v]
        rfl

theorem find_of_mem_keys {l : List Entry} {key : String}
    (h : key ∈ keysOf l) :
    ∃ e, l.find? (fun x => x.key == key) = some e := by
  induction l with
  | nil => simp [keysOf] at h
  | cons a rest ih =>
    by_cases ha : a.key = key
    · refine ⟨a, ?_⟩
      rw [List.find?_cons, show (a.key == key) = true by simp [ha]]
    · have : key ∈ keysOf rest := by
        simp only [keysOf, List.map_cons, List.toFinset_cons, Finset.mem_insert] at h
        rcases h with h | h
        · exact absurd h.symm ha
        · simpa [keysOf] using h
      obtain ⟨e, he⟩ := ih this
      refine ⟨e, ?_⟩
      rw [List.find?_cons, show (a.key == key) = false by simp [ha]]
      exact he

theorem moveToFront_eq {c : LRUCache} {key : String} {e : Entry}
    (h : c.list.find? (fun x => x.key == key) = some e) (now : Nat) :
    moveToFrontKey c key now =
      { c with list := { e with timeAccessed := now } ::
          c.list.eraseP (fun x => x.key == key) } := by
  simp [moveToFrontKey, h]

theorem map_moveToFront_perm {α : Type} {c : LRUCache} {key : String} {e : Entry}
    (h : c.list.find? (fun x => x.key == key) = some e) (now : Nat)
    (f : Entry → α) (hf : ∀ x t, f { x with timeAccessed := t } = f x) :
    ((moveToFrontKey c key now).list.map f).Perm (c.list.map f) := by
  obtain ⟨l1, l2, hsplit, -, -, herase, -⟩ := find_key_split h
  rw [moveToFront_eq h, herase]
  conv_rhs => rw [hsplit]
  simp only [List.map_cons, List.map_append, hf]
  exact (List.perm_middle).symm

theorem moveToFront_consistent {c : LRUCache} (key : String) (now : Nat)
    (hcons : Consistent c) : Consistent (moveToFrontKey c key now) := by
  cases hfind : c.list.find? (fun x => x.key == key) with
  | none => simpa [moveToFrontKey, hfind] using hcons
  | some e =>
    obtain ⟨hsz, htable, hnodup⟩ := hcons
    have hkperm := map_moveToFront_perm hfind now Entry.key (fun x t => rfl)
    have hsperm := map_moveToFront_perm hfind now Entry.sz (fun x t => rfl)
    refine ⟨?_, ?_, ?_⟩
    · show (moveToFrontKey c key now).size =
        u64ofInt (sumInt (moveToFrontKey c key now).list)
      rw [moveToFront_eq hfind]
      show c.size = u64ofInt (sumInt ({ e with timeAccessed := now } ::
        c.list.eraseP (fun x => x.key == key)))
      rw [hsz]
      congr 1
      show ((c.list.map Entry.sz).sum : Int) = _
      rw [← hsperm.sum_eq]
      rw [moveToFront_eq hfind]
      simp [sumInt]
    · show (moveToFrontKey c key now).table = keysOf (moveToFrontKey c key now).list
      rw [moveToFront_eq hfind]
      show c.table = _
      rw [htable]
      ext a
      simp only [keysOf, List.mem_toFinset]
      have hiff : a ∈ (moveToFrontKey c key now).list.map Entry.key ↔
          a ∈ c.list.map Entry.key := hkperm.mem_iff
      rw [moveToFront_eq hfind] at hiff
      constructor
      · intro ha
        exact hiff.mpr ha
      · intro ha
        exact hiff.mp ha
    · exact (hkperm.symm).nodup hnodup

theorem u64add_u64ofInt (a b : Int) :
    u64add (u64ofInt a) (u64ofInt b) = u64ofInt (a + b) := by
  unfold u64add u64ofInt U64; omega

theorem moveToFront_fields (c : LRUCache) (key : String) (now : Nat) :
    (moveToFrontKey c key now).size = c.size ∧
    (moveToFrontKey c key now).table = c.table ∧
    (moveToFrontKey c key now).capacity = c.capacity := by
  cases hfind : c.list.find? (fun x => x.key == key) <;>
    simp [moveToFrontKey, hfind]

theorem addNew_consistent {c : LRUCache} {key : String} (value : Value)
    (now : Nat) (hcons : Consistent c) (habs : key ∉ c.table) :
    ∃ c', addNew c key value now = some c' ∧ Consistent c' ∧
      c'.capacity = c.capacity ∧ c'.size ≤ c'.capacity := by
  obtain ⟨hsz, htable, hnodup⟩ := hcons
  set c1 : LRUCache :=
    { list := { key := key, value := value, sz := value.sz,
                timeAccessed := now } :: c.list
      table := insert key c.table
      size := u64add c.size (u64ofInt value.sz)
      capacity := c.capacity } with hc1
  have hsz1 : SizeOK c1 := by
    show u64add c.size (u64ofInt value.sz) = u64ofInt (sumInt c1.list)
    rw [hsz, u64add_u64ofInt]
    congr 1
    simp [sumInt, hc1]
    ring
  have htab1 : TableOK c1 := by
    refine ⟨?_, ?_⟩
    · show insert key c.table = keysOf c1.list
      rw [htable]
      simp [keysOf, hc1]
    · show (c1.list.map Entry.key).Nodup
      simp only [hc1, List.map_cons, List.nodup_cons]
      refine ⟨?_, hnodup⟩
      intro hmem
      exact habs (htable ▸ (by simpa [keysOf] using hmem))
  obtain ⟨c', hev, hsz', hcap', hle', -, htab'⟩ := checkCapacity_spec c1 hsz1
  exact ⟨c', hev, ⟨hsz', htab' htab1⟩, hcap', hle'⟩

theorem delete_consistent {c : LRUCache} (key : String)
    (hcons : Consistent c) : Consistent (delete c key).2 ∧
      (delete c key).2.capacity = c.capacity := by
  obtain ⟨hsz, htable, hnodup⟩ := hcons
  cases hlook : tableLookup c key with
  | none =>
    have hid : (delete c key).2 = c := by simp [delete, hlook]
    rw [hid]
    exact ⟨⟨hsz, htable, hnodup⟩, rfl⟩
  | some e =>
    have hfind : c.list.find? (fun x => x.key == key) = some e := by
      by_cases hmem : key ∈ c.table
      · simpa [tableLookup, hmem] using hlook
      · simp [tableLookup, hmem] at hlook
    obtain ⟨l1, l2, hsplit, hl1, hek, herase, -⟩ := find_key_split hfind
    have hres : (delete c key).2 =
        { c with list := c.list.eraseP (fun x => x.key == key)
                 table := c.table.erase key
                 size := u64sub c.size (u64ofInt e.sz) } := by
      simp [delete, hlook]
    rw [hres]
    have hkeys : c.list.map Entry.key =
        l1.map Entry.key ++ e.key :: l2.map Entry.key := by
      rw [hsplit]; simp
    have hnodup2 := hkeys ▸ hnodup
    have hnot1 : e.key ∉ l1.map Entry.key := by
      intro hmem
      rcases List.mem_map.mp hmem with ⟨b, hb, hbk⟩
      exact hl1 b hb (hek ▸ hbk)
    have hnot2 : e.key ∉ l2.map Entry.key := by
      have hn2 : (l1.map Entry.key ++ e.key :: l2.map Entry.key).Nodup :=
        hkeys ▸ hnodup
      have := List.Nodup.of_append_right hn2
      intro hmem
      exact (List.nodup_cons.mp this).1 hmem
    refine ⟨⟨?_, ?_, ?_⟩, rfl⟩
    · show u64sub c.size (u64ofInt e.sz) =
        u64ofInt (sumInt (c.list.eraseP (fun x => x.key == key)))
      rw [hsz, u64sub_u64ofInt, herase]
      congr 1
      conv_lhs => rw [hsplit]
      rw [sumInt_append, sumInt_append]
      simp [sumInt]
      ring
    · show c.table.erase key = keysOf (c.list.eraseP (fun x => x.key == key))
      rw [htable, herase]
      ext a
      simp only [keysOf, Finset.mem_erase, List.mem_toFinset, hkeys,
        List.map_append, List.mem_append, List.mem_cons]
      constructor
      · rintro ⟨hne', (h | h | h)⟩
        · exact Or.inl h
        · exact absurd (hek ▸ h) hne'
        · exact Or.inr h
      · rintro (h | h)
        · exact ⟨fun hn => hnot1 (hek ▸ hn ▸ h), Or.inl h⟩
        · exact ⟨fun hn => hnot2 (hek ▸ hn ▸ h), Or.inr (Or.inr h)⟩
    · show ((c.list.eraseP (fun x => x.key == key)).map Entry.key).Nodup
      rw [herase, List.map_append]
      have h1 := List.Nodup.of_append_left (hkeys ▸ hnodup)
      have h2 := List.nodup_cons.mp (List.Nodup.of_append_right (hkeys ▸ hnodup))
      refine List.nodup_append.mpr ⟨h1, h2.2, ?_⟩
      intro a ha hb
      have hdisj := List.nodup_append.mp (hkeys ▸ hnodup)
      exact hdisj.2.2 ha (List.mem_cons_of_mem _ hb)

theorem updateEntry_keys (l : List Entry) (key : String) (v : Value) :
    (updateEntry l key v).map Entry.key = l.map Entry.key := by
  induction l with
  | nil => rfl
  | cons a rest ih =>
    by_cases ha : (a.key == key) = true
    · simp [updateEntry, ha]
    · simp only [updateEntry, Bool.not_eq_true] at *
      rw [if_neg (by simp_all)]
      simp [ih]

theorem updateInplace_consistent {c : LRUCache} {key : String} (v : Value)
    (now : Nat) (hcons : Consistent c) (hmem : key ∈ c.table) :
    ∃ c', updateInplace c key v now = some c' ∧ Consistent c' ∧
      c'.capacity = c.capacity ∧ c'.size ≤ c'.capacity := by
  obtain ⟨hsz, htable, hnodup⟩ := hcons
  obtain ⟨old, hfind⟩ := find_of_mem_keys (htable ▸ hmem)
  obtain ⟨l1, l2, hsplit, hl1, hek, herase, hupd⟩ := find_key_split hfind
  set c1 : LRUCache :=
    { c with
      list := updateEntry c.list key v
      size := u64add c.size (u64ofInt (v.sz - old.sz)) } with hc1
  have hsum : sumInt (updateEntry c.list key v) =
      sumInt c.list + (v.sz - old.sz) := by
    rw [hupd v]
    conv_rhs => rw [hsplit]
    rw [sumInt_append, sumInt_append]
    simp [sumInt]
    ring
  have hcons1 : Consistent c1 := by
    refine ⟨?_, ?_, ?_⟩
    · show u64add c.size (u64ofInt (v.sz - old.sz)) =
        u64ofInt (sumInt (updateEntry c.list key v))
      rw [hsz, u64add_u64ofInt, hsum]
    · show c.table = keysOf (updateEntry c.list key v)
      rw [htable]
      simp [keysOf, updateEntry_keys]
    · show ((updateEntry c.list key v).map Entry.key).Nodup
      rw [updateEntry_keys]
      exact hnodup
  have hcons2 := moveToFront_consistent key now hcons1
  obtain ⟨c', hev, hsz', hcap', hle', -, htab'⟩ :=
    checkCapacity_spec (moveToFrontKey c1 key now) hcons2.1
  refine ⟨c', ?_, ⟨hsz', htab' hcons2.2⟩, ?_, hle'⟩
  · show updateInplace c key v now = some c'
    simp only [updateInplace, hfind]
    exact hev
  · rw [hcap', (moveToFront_fields c1 key now).2.2]

theorem get_consistent {c : LRUCache} (key : String) (now : Nat)
    (hcons : Consistent c) : Consistent (get c key now).2 := by
  cases hlook : tableLookup c key with
  | none => simpa [get, hlook] using hcons
  | some e =>
    have : (get c key now).2 = moveToFrontKey c key now := by
      simp [get, hlook]
    rw [this]
    exact moveToFront_consistent key now hcons

theorem set_consistent {c : LRUCache} (key : String) (v : Value) (now : Nat)
    (hcons : Consistent c) :
    ∃ c', set c key v now = some c' ∧ Consistent c' := by
  by_cases hmem : key ∈ c.table
  · refine ⟨moveToFrontKey c key now, by simp [set, hmem], ?_⟩
    exact moveToFront_consistent key now hcons
  · obtain ⟨c', hadd, hcons', -, -⟩ := addNew_consistent v now hcons hmem
    exact ⟨c', by simp [set, hmem, hadd], hcons'⟩

theorem setIfAbsent_consistent {c : LRUCache} (key : String) (v : Value)
    (now : Nat) (hcons : Consistent c) :
    ∃ c', setIfAbsent c key v now = some c' ∧ Consistent c' := by
  by_cases hmem : key ∈ c.table
  · exact ⟨c, by simp [setIfAbsent, hmem], hcons⟩
  · obtain ⟨c', hadd, hcons', -, -⟩ := addNew_consistent v now hcons hmem
    exact ⟨c', by simp [setIfAbsent, hmem, hadd], hcons'⟩

theorem clear_consistent (c : LRUCache) : Consistent (clear c) := by
  refine ⟨?_, ?_, ?_⟩ <;> simp [clear, SizeOK, sumInt, keysOf, u64ofInt]

theorem setCapacity_consistent {c : LRUCache} (cap : Nat)
    (hcons : Consistent c) :
    ∃ c', setCapacity c cap = some c' ∧ Consistent c' := by
  obtain ⟨hsz, htable, hnodup⟩ := hcons
  have hcons1 : Consistent { c with capacity := cap % U64 } :=
    ⟨hsz, htable, hnodup⟩
  obtain ⟨c', hev, hsz', -, -, -, htab'⟩ :=
    checkCapacity_spec _ hcons1.1
  exact ⟨c', hev, hsz', htab' hcons1.2⟩

theorem applyItems_consistent (itemList : List Item) :
    ∀ (c : LRUCache) (now : Nat), Consistent c →
    ∃ c', applyItems c itemList now = some c' ∧ Consistent c' := by
  induction itemList with
  | nil => exact fun c now h => ⟨c, rfl, h⟩
  | cons item rest ih =>
    intro c now hcons
    by_cases hmem : item.key ∈ c.table
    · obtain ⟨c1, hup, hcons1, -, -⟩ :=
        updateInplace_consistent item.value now hcons hmem
      obtain ⟨c', happ, hcons'⟩ := ih c1 now hcons1
      refine ⟨c', ?_, hcons'⟩
      simp only [applyItems, if_pos hmem, hup]
      exact happ
    · obtain ⟨c1, hadd, hcons1, -, -⟩ :=
        addNew_consistent item.value now hcons hmem
      obtain ⟨c', happ, hcons'⟩ := ih c1 now hcons1
      refine ⟨c', ?_, hcons'⟩
      simp only [applyItems, if_neg hmem, hadd]
      exact happ

theorem applyOp_consistent {c : LRUCache} (op : Op) (now : Nat)
    (hcons : Consistent c) :
    ∃ c', applyOp c op now = some c' ∧ Consistent c' := by
  cases op with
  | get key => exact ⟨_, rfl, get_consistent key now hcons⟩
  | set key v =>
    obtain ⟨c', h, hc⟩ := set_consistent key v now hcons
    exact ⟨c', h, hc⟩
  | setIfAbsent key v =>
    obtain ⟨c', h, hc⟩ := setIfAbsent_consistent key v now hcons
    exact ⟨c', h, hc⟩
  | delete key => exact ⟨_, rfl, (delete_consistent key hcons).1⟩
  | clear => exact ⟨_, rfl, clear_consistent c⟩
  | setCapacity cap =>
    obtain ⟨c', h, hc⟩ := setCapacity_consistent cap hcons
    exact ⟨c', h, hc⟩
  | load r =>
    cases r with
    | bad => exact ⟨c, by simp [applyOp, loadItems], hcons⟩
    | ok itemList =>
      obtain ⟨c', happ, hcons'⟩ := applyItems_consistent itemList c now hcons
      refine ⟨c', ?_, hcons'⟩
      simp [applyOp, loadItems, happ]

theorem runOps_consistent (ops : List Op) :
    ∀ (now : Nat) (c : LRUCache), Consistent c →
    ∃ c', runOps ops now c = some c' ∧ Consistent c' := by
  induction ops with
  | nil => exact fun now c h => ⟨c, rfl, h⟩
  | cons op rest ih =>
    intro now c hcons
    obtain ⟨c1, hop, hcons1⟩ := applyOp_consistent op now hcons
    obtain ⟨c', hrun, hcons'⟩ := ih (now + 1) c1 hcons1
    refine ⟨c', ?_, hcons'⟩
    simp only [runOps, hop]
    exact hrun

theorem consistent_fresh (cap : Nat) : Consistent (NewLRUCache cap) := by
  refine ⟨?_, ?_, ?_⟩ <;> simp [NewLRUCache, SizeOK, sumInt, keysOf, u64ofInt]

theorem sumInt_nonneg {l : List Entry} (h : ∀ e ∈ l, 0 ≤ e.sz) :
    0 ≤ sumInt l := by
  induction l with
  | nil => simp [sumInt]
  | cons a rest ih =>
    have := h a (List.mem_cons_self a rest)
    have hr := ih (fun e he => h e (List.mem_cons_of_mem a he))
    simp only [sumInt, List.map_cons, List.sum_cons] at *
    omega

theorem le_sumInt_of_mem {l : List Entry} {e : Entry}
    (hnn : ∀ x ∈ l, 0 ≤ x.sz) (hmem : e ∈ l) : e.sz ≤ sumInt l := by
  induction l with
  | nil => simp at hmem
  | cons a rest ih =>
    rcases List.mem_cons.mp hmem with h | h
    · subst h
      have := sumInt_nonneg (fun x hx => hnn x (List.mem_cons_of_mem e hx))
      simp only [sumInt, List.map_cons, List.sum_cons] at *
      omega
    · have ha := hnn a (List.mem_cons_self a rest)
      have := ih (fun x hx => hnn x (List.mem_cons_of_mem a hx)) h
      simp only [sumInt, List.map_cons, List.sum_cons] at *
      omega

theorem sumInt_take_le {l : List Entry} (k : Nat)
    (hnn : ∀ x ∈ l, 0 ≤ x.sz) : sumInt (l.take k) ≤ sumInt l := by
  conv_rhs => rw [← List.take_append_drop k l]
  rw [sumInt_append]
  have : 0 ≤ sumInt (l.drop k) :=
    sumInt_nonneg (fun x hx => hnn x (List.drop_subset k l hx))
  omega

/-- C4 (amended): along every sequence of public operations from a fresh
cache, no run panics, the accounted `size` equals the sum of the present
entries' cached sizes reduced modulo `2 ^ 64`, and the index is exactly
the set of listed keys with no key listed twice, so the index size equals
the list length. -/
theorem setSequence_invariant (ops : List Op) (now cap : Nat) :
    ∃ c', runOps ops now (NewLRUCache cap) = some c' ∧
      c'.size = u64ofInt (sumInt c'.list) ∧
      c'.table = keysOf c'.list ∧
      (c'.list.map Entry.key).Nodup ∧
      c'.table.card = c'.list.length := by
  obtain ⟨c', hrun, hsz, htable, hnodup⟩ :=
    runOps_consistent ops now (NewLRUCache cap) (consistent_fresh cap)
  refine ⟨c', hrun, hsz, htable, hnodup, ?_⟩
  rw [htable]
  show (c'.list.map Entry.key).toFinset.card = c'.list.length
  rw [List.toFinset_card_of_nodup hnodup, List.length_map]

/-- C9: on any state where entry sizes are non-negative and the accounted
size is exactly the sum of the cached entry sizes (as every state
reachable through the public operations is), the eviction loop terminates
without ever dereferencing the back of an empty list (it returns an
actual final state rather than the panic marker), ends with
`size ≤ capacity`, and removes at most the entries present. -/
theorem checkCapacity_terminates (c : LRUCache)
    (hnn : ∀ e ∈ c.list, 0 ≤ e.sz)
    (hsum : (c.size : Int) = sumInt c.list)
    (hrange : c.size < U64) :
    ∃ c', checkCapacity c = some c' ∧ c'.size ≤ c'.capacity ∧
      c'.list.length ≤ c.list.length := by
  have hszok : SizeOK c := by
    show c.size = u64ofInt (sumInt c.list)
    rw [← hsum]
    unfold u64ofInt U64 at *
    omega
  obtain ⟨c', hev, -, -, hle, ⟨k, htake⟩, -⟩ := checkCapacity_spec c hszok
  refine ⟨c', hev, hle, ?_⟩
  rw [htake, List.length_take]
  omega

theorem checkCapacity_terminates_witness :
    (∀ e ∈ evictDemoState.list, 0 ≤ e.sz) ∧
    ((evictDemoState.size : Int) = sumInt evictDemoState.list) ∧
    evictDemoState.size < U64 ∧
    ∃ c', checkCapacity evictDemoState = some c' ∧ c'.size ≤ c'.capacity ∧
      c'.list.length ≤ evictDemoState.list.length :=
  ⟨by decide, by decide, by decide,
    checkCapacity_terminates evictDemoState (by decide) (by decide) (by decide)⟩

/-- C1 (amended): when one entry's cached size alone exceeds the
configured capacity (in a consistent state with non-negative sizes),
eviction does not retain that entry: the run completes with
`size ≤ capacity`, and the oversized entry has been removed from both the
ordering structure and the index (entries more recently used than it may
survive). -/
theorem oversized_entry_evicted (c : LRUCache) (e : Entry)
    (hcons : Consistent c)
    (hnn : ∀ x ∈ c.list, 0 ≤ x.sz)
    (hbound : sumInt c.list < 18446744073709551616)
    (hmem : e ∈ c.list) (hover : (c.capacity : Int) < e.sz) :
    ∃ c', checkCapacity c = some c' ∧ c'.size ≤ c.capacity ∧
      (∀ x ∈ c'.list, x.key ≠ e.key) ∧ e.key ∉ c'.table := by
  obtain ⟨hsz, htable, hnodup⟩ := hcons
  obtain ⟨c', hev, hsz', hcap', hle', ⟨k, htake⟩, htab'⟩ :=
    checkCapacity_spec c hsz
  obtain ⟨htable', hnodup'⟩ := htab' ⟨htable, hnodup⟩
  have hnn' : ∀ x ∈ c'.list, 0 ≤ x.sz := by
    intro x hx
    exact hnn x (List.take_subset k c.list (htake ▸ hx))
  have hsum' : sumInt c'.list ≤ sumInt c.list := by
    rw [htake]
    exact sumInt_take_le k hnn
  have hsize' : (c'.size : Int) = sumInt c'.list := by
    rw [hsz']
    have h0 : (0:Int) ≤ sumInt c'.list := sumInt_nonneg hnn'
    unfold u64ofInt
    omega
  have hkey : ∀ x ∈ c'.list, x.key ≠ e.key := by
    intro x hx hxe
    have hxc : x ∈ c.list := List.take_subset k c.list (htake ▸ hx)
    have hxeq : x = e := List.inj_on_of_nodup_map hnodup hxc hmem hxe
    subst hxeq
    have hle2 : x.sz ≤ sumInt c'.list := le_sumInt_of_mem hnn' hx
    rw [← hsize'] at hle2
    rw [hcap'] at hle'
    have : (c'.size : Int) ≤ (c.capacity : Int) := by exact_mod_cast hle'
    omega
  refine ⟨c', hev, hcap' ▸ hle', hkey, ?_⟩
  rw [htable']
  intro hmem'
  simp only [keysOf, List.mem_toFinset, List.mem_map] at hmem'
  obtain ⟨x, hx, hxk⟩ := hmem'
  exact hkey x hx hxk

/-- C1 counterexample: in the consistent state holding exactly one entry,
of cached size 5 against capacity 3 (so its size alone exceeds capacity),
running eviction does not stop with the oversized entry still present:
it removes it too, finishing with an empty list, an empty index and
`size = 0 ≤ capacity`. -/
theorem oversized_entry_not_retained :
    Consistent oversizedState ∧
    (oversizedState.capacity : Int) < oversizedEntry.sz ∧
    checkCapacity oversizedState =
      some { list := [], table := ∅, size := 0, capacity := 3 } ∧
    (0 : Nat) ≤ oversizedState.capacity := by decide

theorem oversized_entry_evicted_witness :
    Consistent oversizedState ∧
    (∀ x ∈ oversizedState.list, 0 ≤ x.sz) ∧
    sumInt oversizedState.list < 18446744073709551616 ∧
    oversizedEntry ∈ oversizedState.list ∧
    (oversizedState.capacity : Int) < oversizedEntry.sz ∧
    ∃ c', checkCapacity oversizedState = some c' ∧
      c'.size ≤ oversizedState.capacity ∧
      (∀ x ∈ c'.list, x.key ≠ oversizedEntry.key) ∧
      oversizedEntry.key ∉ c'.table :=
  ⟨by decide, by decide, by decide, by decide, by decide,
    oversized_entry_evicted oversizedState oversizedEntry (by decide)
      (by decide) (by decide) (by decide) (by decide)⟩

/-- C4 counterexample: a fresh cache, capacity set to `2 ^ 64 - 1`, then
three inserts of contract-obeying values with sizes `2 ^ 63 - 1`,
`2 ^ 63 - 1` and `2`. The `uint64` accumulator wraps: the run ends with
three entries whose cached sizes sum to `2 ^ 64` while the accounted
`size` is `0`, so the accounted size does not equal the sum of the
present entries' cached sizes. -/
theorem size_sum_overflow :
    runOps overflowOps 0 (NewLRUCache 0) = some overflowFinal ∧
    (overflowFinal.size : Int) ≠ sumInt overflowFinal.list :=
  ⟨rfl, by decide⟩

/-- C2: on a key already present, `set` is touch-only: it returns the
promoted state, leaving the accounted size, the index, and the capacity
unchanged; the promoted entry keeps its stored value and cached size
(only the timestamp is refreshed and the entry moves to the front), and
the multiset of (key, value, cached size) triples is unchanged — even
though the call supplied a new value `v`. On an absent key, `set` is
exactly insertion via `addNew` (which runs eviction). -/
theorem set_touch_only :
    (∀ (c : LRUCache) (key : String) (v : Value) (now : Nat) (e : Entry),
      key ∈ c.table →
      c.list.find? (fun x => x.key == key) = some e →
      set c key v now = some (moveToFrontKey c key now) ∧
      (moveToFrontKey c key now).size = c.size ∧
      (moveToFrontKey c key now).table = c.table ∧
      (moveToFrontKey c key now).capacity = c.capacity ∧
      (moveToFrontKey c key now).list.head? =
        some { key := e.key, value := e.value, sz := e.sz,
               timeAccessed := now } ∧
      ((moveToFrontKey c key now).list.map
          (fun x => (x.key, x.value, x.sz))).Perm
        (c.list.map (fun x => (x.key, x.value, x.sz)))) ∧
    (∀ (c : LRUCache) (key : String) (v : Value) (now : Nat),
      key ∉ c.table → set c key v now = addNew c key v now) := by
  constructor
  · intro c key v now e hmem hfind
    refine ⟨by simp [set, hmem], (moveToFront_fields c key now).1,
      (moveToFront_fields c key now).2.1,
      (moveToFront_fields c key now).2.2, ?_, ?_⟩
    · rw [moveToFront_eq hfind]
      rfl
    · exact map_moveToFront_perm hfind now _ (fun x t => rfl)
  · intro c key v now hmem
    simp [set, hmem]

theorem set_touch_only_witness :
    ("a" ∈ touchState.table) ∧
    (touchState.list.find? (fun x => x.key == "a") = some touchEntry) ∧
    (set touchState "a" { payload := 9, sz := 99 } 5 =
        some (moveToFrontKey touchState "a" 5) ∧
      (moveToFrontKey touchState "a" 5).size = touchState.size ∧
      (moveToFrontKey touchState "a" 5).table = touchState.table ∧
      (moveToFrontKey touchState "a" 5).capacity = touchState.capacity ∧
      (moveToFrontKey touchState "a" 5).list.head? =
        some { key := touchEntry.key, value := touchEntry.value,
               sz := touchEntry.sz, timeAccessed := 5 } ∧
      ((moveToFrontKey touchState "a" 5).list.map
          (fun x => (x.key, x.value, x.sz))).Perm
        (touchState.list.map (fun x => (x.key, x.value, x.sz)))) :=
  ⟨by decide, by decide,
    set_touch_only.1 touchState "a" { payload := 9, sz := 99 } 5 touchEntry
      (by decide) (by decide)⟩

/-- C7: `setIfAbsent` on a key that is already present returns the state
completely unchanged: same stored value, same accounted size, same
recency order, same timestamps — not even a promotion happens. -/
theorem setIfAbsent_noop (c : LRUCache) (key : String) (v : Value)
    (now : Nat) (hmem : key ∈ c.table) : setIfAbsent c key v now = some c := by
  simp [setIfAbsent, hmem]

theorem setIfAbsent_noop_witness :
    ("a" ∈ touchState.table) ∧
    setIfAbsent touchState "a" { payload := 42, sz := 3 } 9 =
      some touchState :=
  ⟨by decide,
    setIfAbsent_noop touchState "a" { payload := 42, sz := 3 } 9 (by decide)⟩

/-- C8: `delete` on an absent key returns `false` and leaves the state
(and hence `stats()` — count, size, capacity, oldest access time)
unchanged; on a present key it returns `true`, removes the entry from
both the ordering structure and the index, and decrements `size` by the
entry's cached size. -/
theorem delete_frame :
    (∀ (c : LRUCache) (key : String), key ∉ c.table →
      delete c key = (false, c) ∧ stats (delete c key).2 = stats c) ∧
    (∀ (c : LRUCache) (key : String) (e : Entry), key ∈ c.table →
      c.list.find? (fun x => x.key == key) = some e →
      delete c key = (true,
        { list := c.list.eraseP (fun x => x.key == key)
          table := c.table.erase key
          size := u64sub c.size (u64ofInt e.sz)
          capacity := c.capacity }) ∧
      (0 ≤ e.sz → e.sz ≤ (c.size : Int) → c.size < U64 →
        (delete c key).2.size = c.size - e.sz.toNat)) := by
  constructor
  · intro c key hmem
    have h : delete c key = (false, c) := by
      simp [delete, tableLookup, hmem]
    exact ⟨h, by rw [h]⟩
  · intro c key e hmem hfind
    have h : delete c key = (true,
        { list := c.list.eraseP (fun x => x.key == key)
          table := c.table.erase key
          size := u64sub c.size (u64ofInt e.sz)
          capacity := c.capacity }) := by
      simp [delete, tableLookup, hmem, hfind]
    refine ⟨h, ?_⟩
    intro h0 hle hrange
    rw [h]
    show u64sub c.size (u64ofInt e.sz) = c.size - e.sz.toNat
    unfold u64sub u64ofInt U64 at *
    omega

theorem delete_frame_witness :
    ("zzz" ∉ touchState.table) ∧
    (delete touchState "zzz" = (false, touchState) ∧
      stats (delete touchState "zzz").2 = stats touchState) ∧
    ("a" ∈ touchState.table) ∧
    (touchState.list.find? (fun x => x.key == "a") = some touchEntry) ∧
    (delete touchState "a" = (true,
        { list := touchState.list.eraseP (fun x => x.key == "a")
          table := touchState.table.erase "a"
          size := u64sub touchState.size (u64ofInt touchEntry.sz)
          capacity := touchState.capacity }) ∧
      (0 ≤ touchEntry.sz → touchEntry.sz ≤ (touchState.size : Int) →
        touchState.size < U64 →
        (delete touchState "a").2.size =
          touchState.size - touchEntry.sz.toNat)) :=
  ⟨by decide,
    delete_frame.1 touchState "zzz" (by decide),
    by decide, by decide,
    delete_frame.2 touchState "a" touchEntry (by decide) (by decide)⟩

/-- C10: `StatsJSON` on a nil cache reference returns the literal string
of an empty JSON object instead of failing; on a non-nil cache it
formats exactly the four fields `Stats()` returns — length, size,
capacity, oldest access time — as a JSON object. -/
theorem statsJSON_spec :
    statsJSON none = "\x7b\x7d" ∧
    ∀ c : LRUCache, statsJSON (some c) =
      "\x7b\"Length\": " ++ toString (stats c).1 ++ ", \"Size\": " ++
        toString (stats c).2.1 ++ ", \"Capacity\": " ++
        toString (stats c).2.2.1 ++ ", \"OldestAccess\": \"" ++
        toString (stats c).2.2.2 ++ "\"\x7d" :=
  ⟨rfl, fun c => rfl⟩

/-- C3 counterexample: there is no input stream at all on which a failed
load leaves the cache changed: `LoadItems` decodes the entire stream
before applying anything, so whenever it returns a decoding error the
cache is exactly its pre-load state. This refutes the claim that some
malformed stream leaves earlier decoded pairs applied. -/
theorem load_failure_never_partial :
    ¬ ∃ (c : LRUCache) (r : GobStream) (now : Nat) (c' : LRUCache),
        loadItems c r now = LoadResult.decodeError c' ∧ c' ≠ c := by
  rintro ⟨c, r, now, c', herr, hne⟩
  cases r with
  | bad =>
    simp [loadItems] at herr
    exact hne herr.symm
  | ok itemList =>
    cases happ : applyItems c itemList now <;>
      simp [loadItems, happ] at herr

/-- C3 (amended): a malformed or truncated stream makes `load` return a
decoding error, and every load that fails with a decoding error leaves
the cache exactly unchanged — load failure is transactional, not
partial, because the whole stream is decoded before any pair is
applied. -/
theorem load_failure_transactional :
    (∀ (c : LRUCache) (now : Nat),
      loadItems c GobStream.bad now = LoadResult.decodeError c) ∧
    (∀ (c : LRUCache) (r : GobStream) (now : Nat) (c' : LRUCache),
      loadItems c r now = LoadResult.decodeError c' → c' = c) := by
  constructor
  · intro c now
    rfl
  · intro c r now c' herr
    cases r with
    | bad =>
      simp [loadItems] at herr
      exact herr.symm
    | ok itemList =>
      cases happ : applyItems c itemList now <;>
        simp [loadItems, happ] at herr

theorem load_failure_transactional_witness :
    (loadItems touchState GobStream.bad 4 = LoadResult.decodeError touchState) ∧
    touchState = touchState :=
  ⟨rfl, load_failure_transactional.2 touchState GobStream.bad 4 touchState rfl⟩

theorem sumVal_nonneg {l : List Item} (h : ∀ i ∈ l, 0 ≤ i.value.sz) :
    0 ≤ sumVal l := by
  induction l with
  | nil => simp [sumVal]
  | cons a rest ih =>
    have := h a (List.mem_cons_self a rest)
    have hr := ih (fun i hi => h i (List.mem_cons_of_mem a hi))
    simp only [sumVal, List.map_cons, List.sum_cons] at *
    omega

theorem u64add_exact (a : Nat) (b : Int) (h0 : 0 ≤ b)
    (h1 : (a : Int) + b < 18446744073709551616) :
    u64add a (u64ofInt b) = a + b.toNat := by
  unfold u64add u64ofInt U64 at *
  omega

theorem applyItems_disjoint (itemList : List Item) :
    ∀ (acc : LRUCache) (now : Nat),
      (∀ i ∈ itemList, i.key ∉ acc.table) →
      ((itemList.map Item.key).Nodup) →
      (∀ i ∈ itemList, 0 ≤ i.value.sz) →
      ((acc.size : Int) + sumVal itemList ≤ (acc.capacity : Int)) →
      acc.capacity < U64 →
      applyItems acc itemList now = some
        { list := (itemList.map
            (fun i => ({ key := i.key, value := i.value, sz := i.value.sz,
                         timeAccessed := now } : Entry))).reverse ++ acc.list
          table := acc.table ∪ (itemList.map Item.key).toFinset
          size := acc.size + (sumVal itemList).toNat
          capacity := acc.capacity } := by
  induction itemList with
  | nil =>
    intro acc now _ _ _ _ _
    simp [applyItems, sumVal]
  | cons item rest ih =>
    intro acc now hdis hnodup hnn hfit hcap
    have hmem : item.key ∉ acc.table := hdis item (List.mem_cons_self item rest)
    have hnn0 : 0 ≤ item.value.sz := hnn item (List.mem_cons_self item rest)
    have hnnrest : ∀ i ∈ rest, 0 ≤ i.value.sz :=
      fun i hi => hnn i (List.mem_cons_of_mem item hi)
    have hsumr : 0 ≤ sumVal rest := sumVal_nonneg hnnrest
    have hsumcons : sumVal (item :: rest) = item.value.sz + sumVal rest := by
      simp [sumVal]
    have hfit0 : (acc.size : Int) + item.value.sz ≤ (acc.capacity : Int) := by
      rw [hsumcons] at hfit
      omega
    have hszeq : u64add acc.size (u64ofInt item.value.sz) =
        acc.size + item.value.sz.toNat := by
      apply u64add_exact _ _ hnn0
      have : (acc.capacity : Int) < 18446744073709551616 := by
        exact_mod_cast hcap
      omega
    set acc1 : LRUCache :=
      { list := ({ key := item.key, value := item.value, sz := item.value.sz,
                   timeAccessed := now } : Entry) :: acc.list
        table := insert item.key acc.table
        size := acc.size + item.value.sz.toNat
        capacity := acc.capacity } with hacc1
    have hadd : addNew acc item.key item.value now = some acc1 := by
      unfold addNew
      rw [hszeq]
      exact checkCapacity_noop _ (by
        show acc.size + item.value.sz.toNat ≤ acc.capacity
        omega)
    have hkeyne : ∀ i ∈ rest, i.key ≠ item.key := by
      intro i hi heq
      have : item.key ∈ rest.map Item.key :=
        heq ▸ List.mem_map_of_mem Item.key hi
      exact (List.nodup_cons.mp hnodup).1 this
    have hres := ih acc1 now
      (by
        intro i hi
        show i.key ∉ insert item.key acc.table
        simp only [Finset.mem_insert]
        rintro (h | h)
        · exact hkeyne i hi h
        · exact hdis i (List.mem_cons_of_mem item hi) h)
      (List.nodup_cons.mp hnodup).2 hnnrest
      (by
        show ((acc.size + item.value.sz.toNat : Nat) : Int) + sumVal rest ≤
          (acc.capacity : Int)
        rw [hsumcons] at hfit
        omega)
      hcap
    show (match (if item.key ∈ acc.table then
        updateInplace acc item.key item.value now
      else addNew acc item.key item.value now) with
      | none => none
      | some c' => applyItems c' rest now) = _
    rw [if_neg hmem, hadd]
    show applyItems acc1 rest now = _
    rw [hres]
    congr 1
    refine LRUCache.mk.injEq .. |>.mpr ⟨?_, ?_, ?_, rfl⟩
    · show (rest.map _).reverse ++ acc1.list = _
      simp only [hacc1, List.map_cons, List.reverse_cons, List.append_assoc,
        List.cons_append, List.nil_append]
    · show insert item.key acc.table ∪ (rest.map Item.key).toFinset = _
      simp only [List.map_cons, List.toFinset_cons]
      ext a
      simp only [Finset.mem_union, Finset.mem_insert]
      tauto
    · show acc.size + item.value.sz.toNat + (sumVal rest).toNat = _
      rw [hsumcons]
      omega

/-- C6 (amended): when the items' total reported size fits within the
capacity (so no eviction fires during the reload), serializing a cache's
items with `save` and loading that stream into an empty cache of the same
capacity reproduces exactly the same (key, value) pairs; the loaded
recency order is determined by the save-stream order (each loaded item is
pushed to the front, so the loaded list is the reverse of the saved
most-recent-first enumeration). Without that proviso the round trip can
lose entries: see the accompanying counterexample on a reachable wrapped
state. -/
theorem save_load_roundtrip (c : LRUCache) (now : Nat)
    (hnodup : (c.list.map Entry.key).Nodup)
    (hnn : ∀ e ∈ c.list, 0 ≤ e.value.sz)
    (hfit : sumVal (items c) ≤ (c.capacity : Int))
    (hcap : c.capacity < U64) :
    ∃ c', loadItems (NewLRUCache c.capacity) (saveItems c) now =
        LoadResult.ok c' ∧
      c'.list.map (fun e => (e.key, e.value)) =
        (c.list.map (fun e => (e.key, e.value))).reverse := by
  have hkeys : (items c).map Item.key = c.list.map Entry.key := by
    simp only [items, List.map_map]
    rfl
  have hfresh : NewLRUCache c.capacity =
      { list := [], table := ∅, size := 0, capacity := c.capacity } := by
    simp [NewLRUCache, Nat.mod_eq_of_lt hcap]
  have happly := applyItems_disjoint (items c)
    { list := [], table := ∅, size := 0, capacity := c.capacity } now
    (by intro i hi; simp)
    (hkeys ▸ hnodup)
    (by
      intro i hi
      simp only [items, List.mem_map] at hi
      obtain ⟨e, he, rfl⟩ := hi
      exact hnn e he)
    (by simpa using hfit)
    (by simpa using hcap)
  rw [hfresh]
  simp only [loadItems, saveItems, happly]
  refine ⟨_, rfl, ?_⟩
  simp only [List.append_nil, List.map_reverse]
  congr 1
  simp only [items, List.map_map]
  rfl

theorem save_load_roundtrip_witness :
    ((rtState.list.map Entry.key).Nodup) ∧
    (∀ e ∈ rtState.list, 0 ≤ e.value.sz) ∧
    (sumVal (items rtState) ≤ (rtState.capacity : Int)) ∧
    (rtState.capacity < U64) ∧
    ∃ c', loadItems (NewLRUCache rtState.capacity) (saveItems rtState) 7 =
        LoadResult.ok c' ∧
      c'.list.map (fun e => (e.key, e.value)) =
        (rtState.list.map (fun e => (e.key, e.value))).reverse :=
  ⟨by decide, by decide, by decide, by decide,
    save_load_roundtrip rtState 7 (by decide) (by decide) (by decide)
      (by decide)⟩

/-- C6 counterexample: the round trip does not hold for every cache
state. The reachable state produced by `setCapacity (2 ^ 64 - 1)`, three
inserts of sizes `2 ^ 63 - 1`, `2 ^ 63 - 1` and `2` (which wrap the
`uint64` accounting to 0), then `setCapacity (2 ^ 63)` (which evicts
nothing, since the wrapped size 0 is within capacity) holds the three
keys "c", "b", "a", whose true sizes total `2 ^ 64`. Saving it and
loading the stream into an empty cache of the same capacity `2 ^ 63`
evicts during the reload: the loaded cache retains only "a", so the set
of (key, value) pairs is not reproduced. -/
theorem roundtrip_loses_entries :
    runOps wrapOps 0 (NewLRUCache 0) = some wrapState ∧
    wrapState.list.map Entry.key = ["c", "b", "a"] ∧
    loadItems (NewLRUCache wrapState.capacity) (saveItems wrapState) 9 =
      LoadResult.ok wrapLoaded ∧
    wrapLoaded.list.map Entry.key = ["a"] ∧
    "b" ∉ wrapLoaded.table ∧ "c" ∉ wrapLoaded.table :=
  ⟨rfl, rfl, rfl, rfl, by decide, by decide⟩

theorem set_absent_small (c : LRUCache) (key : String) (v : Value)
    (n now : Nat) (hv : v.sz = (n : Int)) (habs : key ∉ c.table)
    (hfit : c.size + n ≤ c.capacity) (hcap : c.capacity < U64) :
    set c key v now = some
      { list := { key := key, value := v, sz := v.sz,
                  timeAccessed := now } :: c.list
        table := insert key c.table
        size := c.size + n
        capacity := c.capacity } := by
  have hadd : u64add c.size (u64ofInt v.sz) = c.size + n := by
    rw [hv]
    unfold u64add u64ofInt U64 at *
    omega
  rw [set, if_neg habs]
  unfold addNew
  rw [hadd]
  exact checkCapacity_noop _ (by simpa using hfit)

/-- C5: recency, not insertion order, determines eviction. Starting from
a fresh cache whose capacity accommodates the first two values together
(sizes `na + nb ≤ cap`): insert "a", insert "b", read "a" (promoting it),
then insert "c" whose size forces exactly one eviction
(`cap < na + nb + nc` but `na + nc ≤ cap`). The entry evicted is "b" —
the least recently used — while "a" and "c" remain, most-recent first. -/
theorem lru_evicts_by_recency (cap na nb nc : Nat) (va vb vc : Value)
    (now : Nat)
    (hva : va.sz = (na : Int)) (hvb : vb.sz = (nb : Int))
    (hvc : vc.sz = (nc : Int))
    (hab : na + nb ≤ cap) (hforce : cap < na + nb + nc)
    (hac : na + nc ≤ cap) (hbound : na + nb + nc < U64)
    (hcap : cap < U64) :
    ∃ c', runOps [Op.set "a" va, Op.set "b" vb, Op.get "a", Op.set "c" vc]
        now (NewLRUCache cap) = some c' ∧
      c'.list.map Entry.key = ["c", "a"] ∧
      c'.list.map Entry.value = [vc, va] ∧
      "a" ∈ c'.table ∧ "c" ∈ c'.table ∧ "b" ∉ c'.table := by
  have hfresh : NewLRUCache cap =
      { list := [], table := ∅, size := 0, capacity := cap } := by
    simp [NewLRUCache, Nat.mod_eq_of_lt hcap]
  have ha1 : applyOp { list := [], table := ∅, size := 0, capacity := cap }
      (Op.set "a" va) now = some
      { list := [{ key := "a", value := va, sz := va.sz, timeAccessed := now }]
        table := insert "a" ∅
        size := na
        capacity := cap } := by
    show set { list := [], table := ∅, size := 0, capacity := cap }
      "a" va now = _
    have := set_absent_small
      { list := [], table := ∅, size := 0, capacity := cap }
      "a" va na now hva (Finset.not_mem_empty _) (by simp; omega) hcap
    simpa using this
  have ha2 : applyOp
      { list := [{ key := "a", value := va, sz := va.sz, timeAccessed := now }]
        table := insert "a" ∅
        size := na
        capacity := cap } (Op.set "b" vb) (now + 1) = some
      { list := [{ key := "b", value := vb, sz := vb.sz,
                   timeAccessed := now + 1 },
                 { key := "a", value := va, sz := va.sz, timeAccessed := now }]
        table := insert "b" (insert "a" ∅)
        size := na + nb
        capacity := cap } := by
    show set _ "b" vb (now + 1) = _
    have := set_absent_small
      { list := [{ key := "a", value := va, sz := va.sz, timeAccessed := now }]
        table := insert "a" ∅
        size := na
        capacity := cap }
      "b" vb nb (now + 1) hvb (by simp) (by simpa using hab) hcap
    simpa using this
  have hfind3 :
      ([{ key := "b", value := vb, sz := vb.sz, timeAccessed := now + 1 },
        { key := "a", value := va, sz := va.sz, timeAccessed := now }]
        : List Entry).find? (fun x => x.key == "a") =
      some { key := "a", value := va, sz := va.sz, timeAccessed := now } := rfl
  have ha3 : applyOp
      { list := [{ key := "b", value := vb, sz := vb.sz,
                   timeAccessed := now + 1 },
                 { key := "a", value := va, sz := va.sz, timeAccessed := now }]
        table := insert "b" (insert "a" ∅)
        size := na + nb
        capacity := cap } (Op.get "a") (now + 1 + 1) = some
      { list := [{ key := "a", value := va, sz := va.sz,
                   timeAccessed := now + 1 + 1 },
                 { key := "b", value := vb, sz := vb.sz,
                   timeAccessed := now + 1 }]
        table := insert "b" (insert "a" ∅)
        size := na + nb
        capacity := cap } := rfl
  have hsz4 : u64add (na + nb) (u64ofInt vc.sz) = na + nb + nc := by
    rw [hvc]
    unfold u64add u64ofInt U64 at *
    omega
  have hsz5 : u64sub (na + nb + nc) (u64ofInt vb.sz) = na + nc := by
    rw [hvb]
    unfold u64sub u64ofInt U64 at *
    omega
  have ha4 : applyOp
      { list := [{ key := "a", value := va, sz := va.sz,
                   timeAccessed := now + 1 + 1 },
                 { key := "b", value := vb, sz := vb.sz,
                   timeAccessed := now + 1 }]
        table := insert "b" (insert "a" ∅)
        size := na + nb
        capacity := cap } (Op.set "c" vc) (now + 1 + 1 + 1) = some
      { list := [{ key := "c", value := vc, sz := vc.sz,
                   timeAccessed := now + 1 + 1 + 1 },
                 { key := "a", value := va, sz := va.sz,
                   timeAccessed := now + 1 + 1 }]
        table := Finset.erase (insert "c" (insert "b" (insert "a" ∅))) "b"
        size := na + nc
        capacity := cap } := by
    show addNew
      { list := [{ key := "a", value := va, sz := va.sz,
                   timeAccessed := now + 1 + 1 },
                 { key := "b", value := vb, sz := vb.sz,
                   timeAccessed := now + 1 }]
        table := insert "b" (insert "a" ∅)
        size := na + nb
        capacity := cap } "c" vc (now + 1 + 1 + 1) = _
    unfold addNew
    rw [hsz4]
    show evict (2 + 1 + 1)
      { list := [{ key := "c", value := vc, sz := vc.sz,
                   timeAccessed := now + 1 + 1 + 1 },
                 { key := "a", value := va, sz := va.sz,
                   timeAccessed := now + 1 + 1 },
                 { key := "b", value := vb, sz := vb.sz,
                   timeAccessed := now + 1 }]
        table := insert "c" (insert "b" (insert "a" ∅))
        size := na + nb + nc
        capacity := cap } = _
    rw [evict, if_pos hforce]
    show evict (2 + 1)
      { list := [{ key := "c", value := vc, sz := vc.sz,
                   timeAccessed := now + 1 + 1 + 1 },
                 { key := "a", value := va, sz := va.sz,
                   timeAccessed := now + 1 + 1 }]
        table := Finset.erase (insert "c" (insert "b" (insert "a" ∅))) "b"
        size := u64sub (na + nb + nc) (u64ofInt vb.sz)
        capacity := cap } = _
    rw [hsz5, evict, if_neg (by simp; omega)]
  refine ⟨{ list := [{ key := "c", value := vc, sz := vc.sz,
                       timeAccessed := now + 1 + 1 + 1 },
                     { key := "a", value := va, sz := va.sz,
                       timeAccessed := now + 1 + 1 }]
            table := Finset.erase (insert "c" (insert "b" (insert "a" ∅))) "b"
            size := na + nc
            capacity := cap }, ?_, rfl, rfl,
    by show "a" ∈ Finset.erase (insert "c" (insert "b" (insert "a" ∅))) "b"
       decide,
    by show "c" ∈ Finset.erase (insert "c" (insert "b" (insert "a" ∅))) "b"
       decide,
    by show "b" ∉ Finset.erase (insert "c" (insert "b" (insert "a" ∅))) "b"
       decide⟩
  rw [hfresh]
  show (match applyOp { list := [], table := ∅, size := 0, capacity := cap }
      (Op.set "a" va) now with
    | none => none
    | some c' => runOps [Op.set "b" vb, Op.get "a", Op.set "c" vc]
        (now + 1) c') = _
  rw [ha1]
  show (match applyOp _ (Op.set "b" vb) (now + 1) with
    | none => none
    | some c' => runOps [Op.get "a", Op.set "c" vc] (now + 1 + 1) c') = _
  rw [ha2]
  show (match applyOp _ (Op.get "a") (now + 1 + 1) with
    | none => none
    | some c' => runOps [Op.set "c" vc] (now + 1 + 1 + 1) c') = _
  rw [ha3]
  show (match applyOp _ (Op.set "c" vc) (now + 1 + 1 + 1) with
    | none => none
    | some c' => runOps [] (now + 1 + 1 + 1 + 1) c') = _
  rw [ha4]
  rfl

theorem lru_evicts_by_recency_witness :
    (({ payload := 1, sz := 1 } : Value).sz = ((1 : Nat) : Int)) ∧
    (1 + 1 ≤ 2) ∧ (2 < 1 + 1 + 1) ∧ (1 + 1 ≤ 2) ∧
    (1 + 1 + 1 < U64) ∧ (2 < U64) ∧
    ∃ c', runOps [Op.set "a" { payload := 1, sz := 1 },
        Op.set "b" { payload := 2, sz := 1 },
        Op.get "a",
        Op.set "c" { payload := 3, sz := 1 }] 0 (NewLRUCache 2) = some c' ∧
      c'.list.map Entry.key = ["c", "a"] ∧
      c'.list.map Entry.value =
        [{ payload := 3, sz := 1 }, { payload := 1, sz := 1 }] ∧
      "a" ∈ c'.table ∧ "c" ∈ c'.table ∧ "b" ∉ c'.table :=
  ⟨rfl, by decide, by decide, by decide, by decide, by decide,
    lru_evicts_by_recency 2 1 1 1
      { payload := 1, sz := 1 } { payload := 2, sz := 1 }
      { payload := 3, sz := 1 } 0
      rfl rfl rfl (by decide) (by decide) (by decide) (by decide) (by decide)⟩

end ReadySetGo
